import Mathlib

/-!
# Verification of the TaskNest / TaskFlow core (`src/app.js`)

A shallow embedding of the two logical cores of the application:

* the natural-language fragment parser `parseNLP` (app.js lines 75-118);
* the filter/sort query pipeline `getFilteredTasks` (app.js lines 223-302),
  together with the mutators `reorderTasks` (570-581) and `addTask` (520-530).

Modelling conventions:

* JS strings are `List Char` / `String`; the regexes of the source (all of
  which use only ASCII literals, `\w`, `\d`, `\s`, `\b` and case-insensitive
  flags) are embedded as explicit scanning functions over `List Char`.
  Case-insensitivity is ASCII case folding, `\w` is `[A-Za-z0-9_]`, `\d` is
  `[0-9]`, and `\s` is modelled by the ASCII whitespace subset of the JS
  class (all inputs in scope are ASCII).
* JS `Date` values are modelled by a wall-clock record `DateTime`
  (year/month/day/hour/minute/second, fixed UTC-like offset, no DST;
  milliseconds behave exactly like the modelled seconds under
  `setHours(h, m, 0, 0)` and are omitted).  Timestamps compared only as
  instants (task fields `dueAt`, `createdAt`, ...) are modelled as `Int`
  epoch milliseconds.
* Functions whose JS recursion skips over a matched chunk take an explicit
  fuel argument (one unit per scanned position suffices, wrappers pass
  `s.length`), keeping every definition structurally recursive and hence
  kernel-computable.
-/

namespace App

/-! ## Character classes (JS regex classes, ASCII fragment) -/

/-- ASCII lower-casing, the case folding performed by the `i` regex flag on
the ASCII patterns of the source. -/
def toLowerChar (c : Char) : Char :=
  if 'A' ≤ c ∧ c ≤ 'Z' then Char.ofNat (c.toNat + 32) else c

/-- Case-insensitive character equality. -/
def ciEq (c d : Char) : Bool := toLowerChar c = toLowerChar d

/-- JS regex `\w`: `[A-Za-z0-9_]`. -/
def isWordChar (c : Char) : Bool :=
  ('a' ≤ c && c ≤ 'z') || ('A' ≤ c && c ≤ 'Z') || ('0' ≤ c && c ≤ '9') || c = '_'

/-- JS regex `\d`: `[0-9]`. -/
def isDigitChar (c : Char) : Bool := '0' ≤ c && c ≤ '9'

/-- JS regex `\s` restricted to ASCII: space, tab, LF, VT, FF, CR. -/
def isSpaceChar (c : Char) : Bool :=
  c = ' ' || c = '\t' || c = '\n' || c = '\r' || c.toNat = 11 || c.toNat = 12

/-- `isPrefixCI p s`: the pattern `p` matches case-insensitively at the start
of `s`. -/
def isPrefixCI : List Char → List Char → Bool
  | [], _ => true
  | _ :: _, [] => false
  | a :: as, c :: cs => ciEq a c && isPrefixCI as cs

/-- `agreeCI a b`: `a` and `b` agree case-insensitively on their common
prefix (the first `min |a| |b|` characters). -/
def agreeCI : List Char → List Char → Bool
  | [], _ => true
  | _ :: _, [] => true
  | a :: as, b :: bs => ciEq a b && agreeCI as bs

/-! ## Global replace of literal patterns (`text.replace(/pat/gi, '')`)

`repF` is the scanner for `text.replace(/p₁|p₂|…/gi, cb)` with an ordered
pattern list (used for `!high`, `!med(ium)?` — greedy, so `!medium` is tried
before `!med` — and `!low`): at each position the first matching pattern is
deleted and scanning resumes after it.  `hasMatchMulti` is the associated
"at least one match" flag (the callback of the source sets the priority on
every match, so only existence matters). -/

/-- One fuel unit is spent per scanned position; `fuel = s.length` always
suffices.  On a match of `p` at `c :: rest` the scanner continues at
`rest.drop (p.length - 1)`, i.e. after the matched chunk (patterns are
never empty). -/
def repF : Nat → List (List Char) → List Char → List Char
  | 0, _, s => s
  | _ + 1, _, [] => []
  | fuel + 1, pats, c :: rest =>
    match pats.find? (fun p => isPrefixCI p (c :: rest)) with
    | some p => repF fuel pats (rest.drop (p.length - 1))
    | none => c :: repF fuel pats rest

/-- `text.replace(/…/gi, '')` over an ordered pattern list. -/
def repAllMulti (pats : List (List Char)) (s : List Char) : List Char :=
  repF s.length pats s

/-- True iff some pattern of `pats` matches case-insensitively at some
position of `s` (equivalently: the replacement callback fires at least
once). -/
def hasMatchMulti (pats : List (List Char)) : List Char → Bool
  | [] => false
  | c :: rest => pats.any (fun p => isPrefixCI p (c :: rest)) || hasMatchMulti pats rest

/-! ## Word-boundary keyword test and replace (`/\bkw\b/gi`)

All keywords of the source (`today`, `tomorrow`, `next week`) begin and end
with `\w` characters, so the `\b` assertions reduce to: the neighbouring
character (when present) is not a word character. -/

/-- The `\b` assertion before a word character, given the previous character
of the original string (`none` at the start of input). -/
def bdryBefore : Option Char → Bool
  | none => true
  | some p => !isWordChar p

/-- The `\b` assertion after the match `w` starting at `s`. -/
def bdryAfter (w s : List Char) : Bool :=
  match s.drop w.length with
  | [] => true
  | d :: _ => !isWordChar d

/-- `/\bw\b/i.test(s)`, scanning with the previous original character. -/
def testWBGo (w : List Char) (prev : Option Char) : List Char → Bool
  | [] => false
  | c :: rest =>
    (bdryBefore prev && isPrefixCI w (c :: rest) && bdryAfter w (c :: rest)) ||
      testWBGo w (some c) rest

/-- `/\bw\b/i.test(s)`. -/
def testWB (w s : List Char) : Bool := testWBGo w none s

/-- Scanner for `s.replace(/\bw\b/gi, '')`.  After a match the previous
character for the next boundary test is the last character of the matched
text; since only its word-character status is consulted and the match is
case-insensitively equal to `w`, the last character of `w` is used. -/
def repWBF : Nat → List Char → Option Char → List Char → List Char
  | 0, _, _, s => s
  | _ + 1, _, _, [] => []
  | fuel + 1, w, prev, c :: rest =>
    if bdryBefore prev && isPrefixCI w (c :: rest) && bdryAfter w (c :: rest) then
      repWBF fuel w (some (w.getLastD '_')) (rest.drop (w.length - 1))
    else
      c :: repWBF fuel w (some c) rest

/-- `s.replace(/\bw\b/gi, '')`. -/
def repAllWB (w s : List Char) : List Char := repWBF s.length w none s

/-! ## Tag extraction (`text.replace(/#(\w+)/g, cb)`) -/

/-- First character of `s`, if any, is a word character. -/
def startsWord : List Char → Bool
  | [] => false
  | d :: _ => isWordChar d

/-- Scanner for the tag regex.  The first argument is `some acc` while inside
the `\w+` run of a tag currently being captured (`acc` holds its characters
in reverse), `none` otherwise. -/
def stripTagsGo : Option (List Char) → List Char → List (List Char) × List Char
  | none, [] => ([], [])
  | some acc, [] => ([acc.reverse], [])
  | none, c :: rest =>
    if c = '#' && startsWord rest then stripTagsGo (some []) rest
    else
      let r := stripTagsGo none rest
      (r.1, c :: r.2)
  | some acc, c :: rest =>
    if isWordChar c then stripTagsGo (some (c :: acc)) rest
    else if c = '#' && startsWord rest then
      let r := stripTagsGo (some []) rest
      (acc.reverse :: r.1, r.2)
    else
      let r := stripTagsGo none rest
      (acc.reverse :: r.1, c :: r.2)

/-- `text.replace(/#(\w+)/g, cb)`: returns the captured tags (in order) and
the text with every `#word` token removed. -/
def stripTags (s : List Char) : List (List Char) × List Char := stripTagsGo none s

/-- True iff the tag regex matches somewhere in `s`. -/
def hasTags : List Char → Bool
  | [] => false
  | c :: rest => (c = '#' && startsWord rest) || hasTags rest

/-! ## Whitespace collapsing and trimming (step 5 of the parser)

`text.replace(/\s{2,}/g, ' ').trim()`: every maximal run of two or more
whitespace characters becomes a single `' '`, a run of one is kept as-is,
then leading/trailing whitespace is removed. -/

/-- Emit a completed whitespace run: empty → nothing, a single character →
itself (a lone `\t` is *not* rewritten), two or more → one space. -/
def emitRun : List Char → List Char
  | [] => []
  | [c] => [c]
  | _ :: _ :: _ => [' ']

/-- State-machine form of `replace(/\s{2,}/g, ' ')`; `run` holds the
(whitespace) characters of the run currently being read, in reverse. -/
def collapseGo (run : List Char) : List Char → List Char
  | [] => emitRun run
  | c :: rest =>
    if isSpaceChar c then collapseGo (c :: run) rest
    else emitRun run ++ c :: collapseGo [] rest

/-- `text.replace(/\s{2,}/g, ' ')`. -/
def collapseWS (s : List Char) : List Char := collapseGo [] s

/-- Drop leading whitespace. -/
def trimLeft (s : List Char) : List Char := s.dropWhile isSpaceChar

/-- Drop trailing whitespace. -/
def trimRight (s : List Char) : List Char := (s.reverse.dropWhile isSpaceChar).reverse

/-- `String.prototype.trim`. -/
def trimWS (s : List Char) : List Char := trimRight (trimLeft s)

/-- The final title construction of `parseNLP`. -/
def finalTitle (s : List Char) : List Char := trimWS (collapseWS s)

/-! ## Time-of-day phrase (`/\b(\d{1,2})(?::(\d{2}))?\s*(am|pm)\b/i`) -/

/-- A successful time-phrase match: the literally matched text, the parsed
hour and minute digits, and the lower-cased meridiem tag (`'a'` or `'p'`). -/
structure TimeMatch where
  matched : List Char
  hour : Nat
  minute : Nat
  mer : Char
  deriving DecidableEq, Repr

/-- `parseInt` on a (nonempty) digit string. -/
def digitsToNat (ds : List Char) : Nat :=
  ds.foldl (fun a c => a * 10 + (c.toNat - '0'.toNat)) 0

/-- Finish a time-phrase match attempt: `s` is the whole candidate suffix,
`pre` the number of characters consumed by the digits (and optional colon
group), `tail` the remainder.  Matches `\s*(am|pm)\b`. -/
def finishTime (s : List Char) (pre : Nat) (hourDs : List Char)
    (minDs : Option (List Char)) (tail : List Char) : Option TimeMatch :=
  let sp := tail.takeWhile isSpaceChar
  let t2 := tail.drop sp.length
  match t2 with
  | a :: b :: rest2 =>
    if (ciEq a 'a' || ciEq a 'p') && ciEq b 'm' &&
        (match rest2 with | [] => true | d :: _ => !isWordChar d) then
      some { matched := s.take (pre + sp.length + 2),
             hour := digitsToNat hourDs,
             minute := (minDs.map digitsToNat).getD 0,
             mer := if ciEq a 'p' then 'p' else 'a' }
    else none
  | _ => none

/-- Try a match of `(\d{1,2})(?::(\d{2}))?\s*(am|pm)\b` at the start of `s`
with exactly `n` hour digits, including the regex backtracking of the
optional `:MM` group (with-colon is tried first, as the group is greedy). -/
def tryHourLen (s : List Char) (n : Nat) : Option TimeMatch :=
  let ds := s.take n
  if ds.length = n && ds.all isDigitChar then
    let tail := s.drop n
    match tail with
    | ':' :: m1 :: m2 :: rest =>
      if isDigitChar m1 && isDigitChar m2 then
        match finishTime s (n + 3) ds (some [m1, m2]) rest with
        | some r => some r
        | none => finishTime s n ds none tail
      else finishTime s n ds none tail
    | _ => finishTime s n ds none tail
  else none

/-- Match attempt at one position: two hour digits are tried before one
(`\d{1,2}` is greedy). -/
def matchTimeAt (s : List Char) : Option TimeMatch :=
  match tryHourLen s 2 with
  | some r => some r
  | none => tryHourLen s 1

/-- Left-to-right search for the first position where the time regex
matches; `prev` is the previous character, for the leading `\b`. -/
def findTimeGo (prev : Option Char) : List Char → Option TimeMatch
  | [] => none
  | c :: rest =>
    match (if bdryBefore prev then matchTimeAt (c :: rest) else none) with
    | some r => some r
    | none => findTimeGo (some c) rest

/-- `text.match(/\b(\d{1,2})(?::(\d{2}))?\s*(am|pm)\b/i)`. -/
def findTime (s : List Char) : Option TimeMatch := findTimeGo none s

/-- `text.replace(matched, '')` with a plain string first argument: remove
the first (case-sensitive) literal occurrence of `pat`. -/
def removeFirstLit (pat : List Char) : List Char → List Char
  | [] => []
  | c :: rest =>
    if pat.isPrefixOf (c :: rest) then (c :: rest).drop pat.length
    else c :: removeFirstLit pat rest

/-! ## Wall-clock date-times -/

/-- A JS `Date` viewed as local wall-clock components (no DST, fixed offset;
see the header).  `month` is 1-based. -/
structure DateTime where
  year : Nat
  month : Nat
  day : Nat
  hour : Nat
  minute : Nat
  second : Nat
  deriving DecidableEq, Repr

/-- Gregorian leap year. -/
def isLeap (y : Nat) : Bool := (y % 4 = 0 && y % 100 ≠ 0) || y % 400 = 0

/-- Days in a (1-based) month. -/
def daysInMonth (y m : Nat) : Nat :=
  if m = 2 then (if isLeap y then 29 else 28)
  else if m = 4 || m = 6 || m = 9 || m = 11 then 30
  else 31

/-- Advance the calendar date by one day (time of day unchanged), as
`d.setDate(d.getDate() + 1)` does. -/
def nextDay (d : DateTime) : DateTime :=
  if d.day < daysInMonth d.year d.month then { d with day := d.day + 1 }
  else if d.month < 12 then { d with month := d.month + 1, day := 1 }
  else { d with year := d.year + 1, month := 1, day := 1 }

/-- `d.setDate(d.getDate() + n)`. -/
def addDays (d : DateTime) : Nat → DateTime
  | 0 => d
  | n + 1 => nextDay (addDays d n)

/-- `d.setHours(h, m, 0, 0)` for nonnegative `h`, `m`: overflow past 23:59
normalises into following days, seconds (and ms) are zeroed. -/
def setHoursJS (d : DateTime) (h mi : Nat) : DateTime :=
  let tot := h * 60 + mi
  let d' := addDays d (tot / 1440)
  { d' with hour := tot % 1440 / 60, minute := tot % 60, second := 0 }

/-! ## The parser `parseNLP` (app.js 75-118) -/

/-- Task priority; the source stores the closed string set
`'high' | 'medium' | 'low'`. -/
inductive Priority where
  | high
  | medium
  | low
  deriving DecidableEq, BEq, Repr

/-- `"!high".toList` etc.: the priority marker patterns. -/
def pHigh : List Char := ['!', 'h', 'i', 'g', 'h']

/-- Pattern `!medium` (the greedy branch of `/!med(ium)?/`). -/
def pMedium : List Char := ['!', 'm', 'e', 'd', 'i', 'u', 'm']

/-- Pattern `!med`. -/
def pMed : List Char := ['!', 'm', 'e', 'd']

/-- Pattern `!low`. -/
def pLow : List Char := ['!', 'l', 'o', 'w']

/-- Keyword `today`. -/
def kwToday : List Char := ['t', 'o', 'd', 'a', 'y']

/-- Keyword `tomorrow`. -/
def kwTomorrow : List Char := ['t', 'o', 'm', 'o', 'r', 'r', 'o', 'w']

/-- Keyword `next week`. -/
def kwNextWeek : List Char := ['n', 'e', 'x', 't', ' ', 'w', 'e', 'e', 'k']

/-- The three priority replacements, in source order (high, medium, low),
applied to the working text. -/
def stripPriorities (s : List Char) : List Char :=
  repAllMulti [pLow] (repAllMulti [pMedium, pMed] (repAllMulti [pHigh] s))

/-- The priority registered by the three replacement callbacks: each
replacement overwrites the value if it matched, so the later checks win. -/
def parsePriority (s0 : List Char) : Priority :=
  let s1 := repAllMulti [pHigh] s0
  let s2 := repAllMulti [pMedium, pMed] s1
  let p1 := if hasMatchMulti [pHigh] s0 then Priority.high else Priority.medium
  let p2 := if hasMatchMulti [pMedium, pMed] s1 then Priority.medium else p1
  if hasMatchMulti [pLow] s2 then Priority.low else p2

/-- The relative-date step (app.js 87-100): `today`, else `tomorrow`, else
`next week`; the matched keyword is replaced globally. -/
def dateStep (now : DateTime) (t : List Char) : Option DateTime × List Char :=
  if testWB kwToday t then
    (some { year := now.year, month := now.month, day := now.day,
            hour := 23, minute := 59, second := 0 },
     repAllWB kwToday t)
  else if testWB kwTomorrow t then
    (some { year := (addDays now 1).year, month := (addDays now 1).month,
            day := (addDays now 1).day, hour := 9, minute := 0, second := 0 },
     repAllWB kwTomorrow t)
  else if testWB kwNextWeek t then
    (some (addDays now 7), repAllWB kwNextWeek t)
  else (none, t)

/-- The 12-hour to 24-hour conversion of the time step. -/
def to24 (h : Nat) (mer : Char) : Nat :=
  if mer = 'p' && h ≠ 12 then h + 12
  else if mer = 'a' && h = 12 then 0
  else h

/-- The time-of-day step (app.js 103-114): applied only when a due date was
established; `d.setHours(h, m, 0, 0)` then the matched text is removed (first
literal occurrence). -/
def timeStep (due : Option DateTime) (t : List Char) : Option DateTime × List Char :=
  match findTime t, due with
  | some tm, some d =>
    (some (setHoursJS d (to24 tm.hour tm.mer) tm.minute), removeFirstLit tm.matched t)
  | _, _ => (due, t)

/-- The working text after priority and tag stripping. -/
def afterTags (s0 : List Char) : List Char := (stripTags (stripPriorities s0)).2

/-- Due date and working text after the date and time steps. -/
def cleanAndDue (now : DateTime) (s0 : List Char) : Option DateTime × List Char :=
  let s4 := afterTags s0
  let dd := dateStep now s4
  timeStep dd.1 dd.2

/-- Result record of `parseNLP`. -/
structure ParseResult where
  title : String
  dueAt : Option DateTime
  priority : Priority
  tags : List String
  deriving DecidableEq, Repr

/-- `parseNLP` (app.js 75-118). -/
def parseNLP (now : DateTime) (text : String) : ParseResult :=
  let s0 := text.toList
  let dd := cleanAndDue now s0
  { title := String.mk (finalTitle dd.2),
    dueAt := dd.1,
    priority := parsePriority s0,
    tags := (stripTags (stripPriorities s0)).1.map String.mk }

/-! ## Task model (app.js 53-70) -/

/-- A subtask `{id, title, done}`. -/
structure Subtask where
  id : String
  title : String
  done : Bool
  deriving DecidableEq, Repr

/-- A task record.  Timestamp-valued fields (`createdAt`, `updatedAt`,
`dueAt`, `completedAt`, `reminderAt`) are epoch-millisecond instants; the
source stores ISO strings and compares them through `new Date(...)`.  The
inert `metadata` object (written `{}` and never read by the core) is
omitted. -/
structure Task where
  id : String
  title : String
  description : String
  createdAt : Int
  updatedAt : Int
  dueAt : Option Int
  completedAt : Option Int
  priority : Priority
  tags : List String
  subtasks : List Subtask
  order : Int
  starred : Bool
  reminderAt : Option Int
  deriving DecidableEq, Repr

/-- The query-relevant fields of the global `state` object: active view,
sidebar tag filter, debounced search string, sort key, priority checkboxes
and due-bucket radio.  `filterTag = none` models the absent/null tag. -/
structure QuerySpec where
  currentView : String
  filterTag : Option String
  searchQuery : String
  sortBy : String
  filterPriorities : List Priority
  filterDue : String
  deriving Repr

/-- The date boundaries computed at the top of `getFilteredTasks`: the
current instant, local midnight, and midnight plus one and seven days.  The
source derives the last three from `now` by calendar arithmetic; they are
kept as parameters here (every theorem below holds for all values). -/
structure Clock where
  now : Int
  todayStart : Int
  todayEnd : Int
  weekEnd : Int
  deriving Repr

/-- The view filter (app.js 231-252); an unknown view leaves the list
unchanged. -/
def viewFilter (clk : Clock) (v : String) (tasks : List Task) : List Task :=
  if v = "today" then
    tasks.filter (fun t => t.completedAt.isNone &&
      match t.dueAt with
      | some d => decide (clk.todayStart ≤ d) && decide (d < clk.todayEnd)
      | none => false)
  else if v = "upcoming" then
    tasks.filter (fun t => t.completedAt.isNone &&
      match t.dueAt with
      | some d => decide (clk.todayEnd ≤ d) && decide (d < clk.weekEnd)
      | none => false)
  else if v = "all" then tasks.filter (fun t => t.completedAt.isNone)
  else if v = "starred" then tasks.filter (fun t => t.starred && t.completedAt.isNone)
  else if v = "completed" then tasks.filter (fun t => t.completedAt.isSome)
  else tasks

/-- The due-date bucket filter (app.js 265-271); any other string (including
the empty default) leaves the list unchanged. -/
def dueFilter (clk : Clock) (d : String) (l : List Task) : List Task :=
  if d = "today" then
    l.filter (fun t =>
      match t.dueAt with
      | some x => decide (clk.todayStart ≤ x) && decide (x < clk.todayEnd)
      | none => false)
  else if d = "week" then
    l.filter (fun t =>
      match t.dueAt with
      | some x => decide (clk.todayStart ≤ x) && decide (x < clk.weekEnd)
      | none => false)
  else if d = "overdue" then
    l.filter (fun t =>
      (match t.dueAt with
       | some x => decide (x < clk.now)
       | none => false) && t.completedAt.isNone)
  else l

/-- Substring test (`String.prototype.includes`). -/
def containsSub (hay pat : List Char) : Bool :=
  match hay with
  | [] => pat.isEmpty
  | c :: rest => pat.isPrefixOf (c :: rest) || containsSub rest pat

/-- The search predicate (app.js 276-280): case-insensitive substring of the
title, the description, or any tag. -/
def matchesSearch (q : String) (t : Task) : Bool :=
  let ql := q.toList.map toLowerChar
  containsSub (t.title.toList.map toLowerChar) ql ||
    containsSub (t.description.toList.map toLowerChar) ql ||
    t.tags.any (fun tg => containsSub (tg.toList.map toLowerChar) ql)

/-- Rank used by the `priority` sort: `{high: 0, medium: 1, low: 2}`. -/
def prioRank : Priority → Int
  | Priority.high => 0
  | Priority.medium => 1
  | Priority.low => 2

/-- Three-way string comparison with `-1/0/1` result (stands in for
`localeCompare`; locale-aware collation is not modelled and no claim
concerns the `alpha` sort). -/
def strCmp (a b : String) : Int :=
  if a < b then -1 else if b < a then 1 else 0

/-- The comparator of app.js 285-299 as a signed integer; any sort key other
than the four named ones (in particular `custom`) falls through to
`a.order - b.order`. -/
def cmpTasks (sort : String) (a b : Task) : Int :=
  if sort = "dueDate" then
    match a.dueAt, b.dueAt with
    | none, none => 0
    | none, some _ => 1
    | some _, none => -1
    | some x, some y => x - y
  else if sort = "priority" then prioRank a.priority - prioRank b.priority
  else if sort = "created" then b.createdAt - a.createdAt
  else if sort = "alpha" then strCmp a.title b.title
  else a.order - b.order

/-- Pair each element with its position in the input list. -/
def withIdx : Nat → List Task → List (Nat × Task)
  | _, [] => []
  | n, t :: ts => (n, t) :: withIdx (n + 1) ts

/-- The order realised by a *stable* sort under the comparator (JS
`Array.prototype.sort` is guaranteed stable): strictly smaller comparator
value first, ties broken by input position. -/
def rIdx (sort : String) (p q : Nat × Task) : Prop :=
  cmpTasks sort p.2 q.2 < 0 ∨ (cmpTasks sort p.2 q.2 = 0 ∧ p.1 ≤ q.1)

instance (sort : String) : DecidableRel (rIdx sort) := fun _ _ =>
  inferInstanceAs (Decidable (_ ∨ _ ∧ _))

/-- The stable sort on index-tagged tasks. -/
def sortIndexed (sort : String) (l : List Task) : List (Nat × Task) :=
  List.insertionSort (rIdx sort) (withIdx 0 l)

/-- `tasks.sort(cmp)` with the stable comparator semantics. -/
def sortTasks (sort : String) (l : List Task) : List Task :=
  (sortIndexed sort l).map Prod.snd

/-- `getFilteredTasks` (app.js 223-302): view, tag, priority and due-bucket
filters, search, then sort. -/
def getFilteredTasks (clk : Clock) (sp : QuerySpec) (tasks : List Task) : List Task :=
  let l0 := viewFilter clk sp.currentView tasks
  let l1 := match sp.filterTag with
            | some g => l0.filter (fun t => t.tags.contains g)
            | none => l0
  let l2 := if sp.filterPriorities.isEmpty then l1
            else l1.filter (fun t => sp.filterPriorities.contains t.priority)
  let l3 := dueFilter clk sp.filterDue l2
  let l4 := if sp.searchQuery = "" then l3 else l3.filter (matchesSearch sp.searchQuery)
  sortTasks sp.sortBy l4

/-! ## Mutators: `reorderTasks` (app.js 570-581) and `addTask` (520-530) -/

/-- `reorderTasks(srcId, destId)`: find the first task with each id, swap
their `order` values and refresh both `updatedAt`; if either is missing the
collection is unchanged. -/
def reorderTasks (tasks : List Task) (srcId destId : String) (now : Int) : List Task :=
  match tasks.findIdx? (fun t => t.id == srcId), tasks.findIdx? (fun t => t.id == destId) with
  | some i, some j =>
    match tasks[i]?, tasks[j]? with
    | some a, some b =>
      (tasks.set i { a with order := b.order, updatedAt := now }).set j
        { b with order := a.order, updatedAt := now }
    | _, _ => tasks
  | _, _ => tasks

/-- `Math.max(...tasks.map(t => t.order))` for a nonempty collection
(`0` is never consulted: callers guard on emptiness). -/
def maxOrder : List Task → Int
  | [] => 0
  | t :: ts => ts.foldl (fun m x => max m x.order) t.order

/-- The order assigned by `addTask`:
`state.tasks.length ? Math.max(...state.tasks.map(t => t.order)) + 1 : 0`. -/
def newOrder (tasks : List Task) : Int :=
  match tasks with
  | [] => 0
  | _ :: _ => maxOrder tasks + 1

/-- The optional creation payload of `createTask(data)`; `none` models an
absent/null property. -/
structure TaskData where
  id : Option String
  title : Option String
  description : Option String
  createdAt : Option Int
  dueAt : Option Int
  completedAt : Option Int
  priority : Option Priority
  tags : Option (List String)
  subtasks : Option (List Subtask)
  order : Option Int
  starred : Option Bool
  reminderAt : Option Int
  deriving Repr

/-- `createTask(data)` (app.js 53-70); `genId` is the freshly generated id,
`nowIso` the current instant, `nowMs` the `Date.now()` fallback order. -/
def createTask (genId : String) (nowIso nowMs : Int) (data : TaskData) : Task :=
  { id := data.id.getD genId,
    title := data.title.getD "",
    description := data.description.getD "",
    createdAt := data.createdAt.getD nowIso,
    updatedAt := nowIso,
    dueAt := data.dueAt,
    completedAt := data.completedAt,
    priority := data.priority.getD Priority.medium,
    tags := data.tags.getD [],
    subtasks := data.subtasks.getD [],
    order := data.order.getD nowMs,
    starred := data.starred.getD false,
    reminderAt := data.reminderAt }

/-- `addTask(data)` (app.js 520-530): create with the max-plus-one order and
unshift onto the front of the stored array; returns the new task and the
new collection. -/
def addTask (tasks : List Task) (data : TaskData) (genId : String)
    (nowIso nowMs : Int) : Task × List Task :=
  let task := createTask genId nowIso nowMs { data with order := some (newOrder tasks) }
  (task, task :: tasks)


/-! ## Specification-side definitions and concrete sample data -/

/-- No two adjacent whitespace characters. -/
def noWW : List Char → Bool
  | [] => true
  | [_] => true
  | a :: b :: r => (!(isSpaceChar a && isSpaceChar b)) && noWW (b :: r)

/-- No priority marker, no tag, no relative-date keyword matches in `s`. -/
def noMarkers (s : List Char) : Bool :=
  !hasMatchMulti [pHigh] s && !hasMatchMulti [pMedium, pMed] s && !hasMatchMulti [pLow] s &&
    !hasTags s && !testWB kwToday s && !testWB kwTomorrow s && !testWB kwNextWeek s

/-- The ordering the `dueDate` sort must realise: ascending by due instant,
tasks without a due date after all tasks with one. -/
def dueLE (a b : Task) : Prop :=
  match a.dueAt, b.dueAt with
  | _, none => True
  | none, some _ => False
  | some x, some y => x ≤ y

/-- Shift an index-tagged task by one input position. -/
def shiftIdx (p : Nat × Task) : Nat × Task := (p.1 + 1, p.2)

/-- A sample wall-clock instant used by concrete witnesses. -/
def dt0 : DateTime :=
  { year := 2024, month := 3, day := 10, hour := 14, minute := 30, second := 5 }

/-- A baseline task record for concrete examples. -/
def taskBase : Task :=
  { id := "t", title := "", description := "", createdAt := 0, updatedAt := 0,
    dueAt := none, completedAt := none, priority := Priority.medium, tags := [],
    subtasks := [], order := 0, starred := false, reminderAt := none }

/-- Sample clock for concrete query evaluations. -/
def clk0 : Clock := { now := 1000, todayStart := 0, todayEnd := 86400000, weekEnd := 604800000 }

/-- Two-task sample collection: one high- and one low-priority task. -/
def tasksHL : List Task :=
  [{ taskBase with id := "h", priority := Priority.high, order := 1 },
   { taskBase with id := "l", priority := Priority.low, order := 2 }]

/-- Query spec: view `all`, priority filter `[high]`, nothing else. -/
def spHigh : QuerySpec :=
  { currentView := "all", filterTag := none, searchQuery := "",
    sortBy := "custom", filterPriorities := [Priority.high], filterDue := "" }

/-- The spec of the reorder example of the spec (§8): A(order 1), B(order 2),
C(order 3). -/
def taskA : Task := { taskBase with id := "A", order := 1 }

/-- Task B of the reorder example. -/
def taskB : Task := { taskBase with id := "B", order := 2 }

/-- Task C of the reorder example. -/
def taskC : Task := { taskBase with id := "C", order := 3 }

/-! ## Lemmas: case-insensitive scanning -/

theorem ciEq_symm {a b : Char} (h : ciEq a b = true) : ciEq b a = true := by
  simp only [ciEq, decide_eq_true_eq] at *
  exact h.symm

theorem ciEq_trans {a b c : Char} (h1 : ciEq a b = true) (h2 : ciEq b c = true) :
    ciEq a c = true := by
  simp only [ciEq, decide_eq_true_eq] at *
  exact h1.trans h2

theorem isPrefixCI_drop : ∀ (i : Nat) (a s : List Char), isPrefixCI a s = true →
    isPrefixCI (a.drop i) (s.drop i) = true := by
  intro i
  induction i with
  | zero => intro a s h; simpa using h
  | succ i ih =>
    intro a s h
    cases a with
    | nil => simp [isPrefixCI]
    | cons x xs =>
      cases s with
      | nil => simp [isPrefixCI] at h
      | cons c cs =>
        simp only [isPrefixCI, Bool.and_eq_true] at h
        simpa [List.drop_succ_cons] using ih xs cs h.2

theorem agree_of_common : ∀ (s a b : List Char), isPrefixCI a s = true →
    isPrefixCI b s = true → agreeCI a b = true := by
  intro s
  induction s with
  | nil =>
    intro a b ha hb
    cases a with
    | nil => simp [agreeCI]
    | cons x xs => simp [isPrefixCI] at ha
  | cons c cs ih =>
    intro a b ha hb
    cases a with
    | nil => simp [agreeCI]
    | cons x xs =>
      cases b with
      | nil => simp [agreeCI]
      | cons y ys =>
        simp only [isPrefixCI, Bool.and_eq_true] at ha hb
        simp only [agreeCI, Bool.and_eq_true]
        exact ⟨ciEq_trans ha.1 (ciEq_symm hb.1), ih xs ys ha.2 hb.2⟩

theorem hasMatch_single_iff (q : List Char) (hq : q ≠ []) :
    ∀ s, hasMatchMulti [q] s = true ↔ ∃ i, isPrefixCI q (s.drop i) = true := by
  intro s
  induction s with
  | nil =>
    simp only [hasMatchMulti]
    constructor
    · intro h; cases h
    · rintro ⟨i, hi⟩
      cases q with
      | nil => exact absurd rfl hq
      | cons x xs => simp [isPrefixCI] at hi
  | cons c rest ih =>
    simp only [hasMatchMulti, List.any_cons, List.any_nil, Bool.or_false, Bool.or_eq_true]
    constructor
    · rintro (h | h)
      · exact ⟨0, by simpa using h⟩
      · obtain ⟨i, hi⟩ := ih.mp h
        exact ⟨i + 1, by simpa [List.drop_succ_cons] using hi⟩
    · rintro ⟨i, hi⟩
      cases i with
      | zero => exact Or.inl (by simpa using hi)
      | succ i' =>
        exact Or.inr (ih.mpr ⟨i', by simpa [List.drop_succ_cons] using hi⟩)

theorem isPrefixCI_repF (pats : List (List Char)) :
    ∀ (w : List Char) (fuel : Nat) (s : List Char), s.length ≤ fuel →
      isPrefixCI w s = true →
      (∀ j, j < w.length → (pats.any (fun p => isPrefixCI p (s.drop j))) = false) →
      isPrefixCI w (repF fuel pats s) = true := by
  intro w
  induction w with
  | nil => intro fuel s _ _ _; cases repF fuel pats s <;> simp [isPrefixCI]
  | cons wc wt ih =>
    intro fuel s hle hpre hj
    cases s with
    | nil => simp [isPrefixCI] at hpre
    | cons c rest =>
      cases fuel with
      | zero => simp at hle
      | succ f =>
        have h0 : (pats.any (fun p => isPrefixCI p (c :: rest))) = false := by
          simpa using hj 0 (by simp)
        have hfind : pats.find? (fun p => isPrefixCI p (c :: rest)) = none :=
          List.find?_eq_none.mpr (List.any_eq_false.mp h0)
        simp only [repF, hfind]
        simp only [isPrefixCI, Bool.and_eq_true] at hpre ⊢
        refine ⟨hpre.1, ih f rest ?_ hpre.2 ?_⟩
        · simpa using Nat.le_of_succ_le_succ hle
        · intro j hj'
          have := hj (j + 1) (by simpa using Nat.succ_lt_succ hj')
          simpa [List.drop_succ_cons] using this

theorem hasMatch_repF (q : List Char) (pats : List (List Char)) (hq : q ≠ [])
    (hA : ∀ p ∈ pats, p ≠ [])
    (hB : ∀ p ∈ pats, ∀ i, i < p.length → agreeCI (p.drop i) q = false)
    (hC : ∀ p ∈ pats, ∀ j, j < q.length → 0 < j → agreeCI (q.drop j) p = false) :
    ∀ (fuel : Nat) (s : List Char), s.length ≤ fuel →
      hasMatchMulti [q] s = true → hasMatchMulti [q] (repF fuel pats s) = true := by
  intro fuel
  induction fuel with
  | zero =>
    intro s hle h
    have : s = [] := List.length_eq_zero.mp (Nat.le_zero.mp hle)
    subst this
    simp [hasMatchMulti] at h
  | succ f ih =>
    intro s hle h
    cases s with
    | nil => simp [hasMatchMulti] at h
    | cons c rest =>
      obtain ⟨i, hi⟩ := (hasMatch_single_iff q hq _).mp h
      cases hfind : pats.find? (fun p => isPrefixCI p (c :: rest)) with
      | none =>
        simp only [repF, hfind]
        cases i with
        | zero =>
          have hq0 : isPrefixCI q (c :: rest) = true := by simpa using hi
          have hnomatch : ∀ j, j < q.length →
              (pats.any (fun p => isPrefixCI p ((c :: rest).drop j))) = false := by
            intro j hjq
            cases j with
            | zero =>
              simpa using List.any_eq_false.mpr (List.find?_eq_none.mp hfind)
            | succ j' =>
              by_contra hcontra
              rw [Bool.not_eq_false, List.any_eq_true] at hcontra
              obtain ⟨p, hpmem, hp⟩ := hcontra
              have hqd : isPrefixCI (q.drop (j' + 1)) ((c :: rest).drop (j' + 1)) = true :=
                isPrefixCI_drop (j' + 1) q (c :: rest) hq0
              have : agreeCI (q.drop (j' + 1)) p = true :=
                agree_of_common ((c :: rest).drop (j' + 1)) _ _ hqd hp
              have hfalse := hC p hpmem (j' + 1) hjq (Nat.succ_pos _)
              rw [hfalse] at this
              cases this
          have hpref := isPrefixCI_repF pats q (f + 1) (c :: rest) hle hq0 hnomatch
          simp only [repF, hfind] at hpref
          exact (hasMatch_single_iff q hq _).mpr ⟨0, by simpa using hpref⟩
        | succ i' =>
          have hrest : hasMatchMulti [q] rest = true :=
            (hasMatch_single_iff q hq _).mpr ⟨i', by simpa [List.drop_succ_cons] using hi⟩
          have hres := ih rest (by simpa using Nat.le_of_succ_le_succ hle) hrest
          simp [hasMatchMulti, hres]
      | some p =>
        have hp : isPrefixCI p (c :: rest) = true := by
          simpa using @List.find?_some _ _ _ _ hfind
        have hpmem : p ∈ pats := List.mem_of_find?_eq_some hfind
        have hpne : p ≠ [] := hA p hpmem
        simp only [repF, hfind]
        rcases Nat.lt_or_ge i p.length with hlt | hge
        · exfalso
          have hpd : isPrefixCI (p.drop i) ((c :: rest).drop i) = true :=
            isPrefixCI_drop i p (c :: rest) hp
          have : agreeCI (p.drop i) q = true :=
            agree_of_common ((c :: rest).drop i) _ _ hpd hi
          have hfalse := hB p hpmem i hlt
          rw [hfalse] at this
          cases this
        · have hplen : 1 ≤ p.length := by
            cases p with
            | nil => exact absurd rfl hpne
            | cons _ _ => simp
          have hdropeq : rest.drop (p.length - 1) = (c :: rest).drop p.length := by
            cases p with
            | nil => exact absurd rfl hpne
            | cons ph pt => simp [List.drop_succ_cons]
          have hocc : isPrefixCI q ((rest.drop (p.length - 1)).drop (i - p.length)) = true := by
            rw [hdropeq, List.drop_drop]
            have : p.length + (i - p.length) = i := by omega
            rw [this]
            exact hi
          apply ih
          · have := List.length_drop (p.length - 1) rest
            have hlen : rest.length + 1 ≤ f + 1 := by simpa using hle
            omega
          · exact (hasMatch_single_iff q hq _).mpr ⟨i - p.length, hocc⟩

theorem repF_of_no_match (pats : List (List Char)) :
    ∀ (fuel : Nat) (s : List Char), hasMatchMulti pats s = false →
      repF fuel pats s = s := by
  intro fuel
  induction fuel with
  | zero => intro s _; rfl
  | succ f ih =>
    intro s h
    cases s with
    | nil => rfl
    | cons c rest =>
      simp only [hasMatchMulti, Bool.or_eq_false_iff] at h
      have hfind : pats.find? (fun p => isPrefixCI p (c :: rest)) = none :=
        List.find?_eq_none.mpr (List.any_eq_false.mp h.1)
      simp [repF, hfind, ih rest h.2]

theorem stripTags_of_no_tags : ∀ s, hasTags s = false → stripTagsGo none s = ([], s) := by
  intro s
  induction s with
  | nil => intro _; rfl
  | cons c rest ih =>
    intro h
    simp only [hasTags, Bool.or_eq_false_iff] at h
    simp [stripTagsGo, h.1, ih h.2]

/-! ## Lemmas: whitespace normalisation -/

theorem noWW_tail {c : Char} {l : List Char} (h : noWW (c :: l) = true) : noWW l = true := by
  cases l with
  | nil => rfl
  | cons d r => simp only [noWW, Bool.and_eq_true] at h; exact h.2

theorem noWW_cons_of_not_space {c : Char} {l : List Char} (hc : isSpaceChar c = false)
    (h : noWW l = true) : noWW (c :: l) = true := by
  cases l with
  | nil => rfl
  | cons d r => simp [noWW, hc, h]

theorem noWW_cons_cons_of_not_space {a b : Char} {l : List Char}
    (hb : isSpaceChar b = false) (h : noWW (b :: l) = true) :
    noWW (a :: b :: l) = true := by
  simp [noWW, hb, h]

theorem collapseGo_noWW : ∀ (s run : List Char), noWW (collapseGo run s) = true := by
  intro s
  induction s with
  | nil =>
    intro run
    match run with
    | [] => rfl
    | [c] => rfl
    | a :: b :: r => rfl
  | cons c rest ih =>
    intro run
    by_cases hc : isSpaceChar c = true
    · simpa [collapseGo, hc] using ih (c :: run)
    · rw [Bool.not_eq_true] at hc
      have hX : noWW (c :: collapseGo [] rest) = true :=
        noWW_cons_of_not_space hc (ih [])
      match run with
      | [] => simpa [collapseGo, hc, emitRun] using hX
      | [x] =>
        simp only [collapseGo, hc, emitRun, Bool.false_eq_true, if_false, List.cons_append,
          List.nil_append]
        exact noWW_cons_cons_of_not_space hc hX
      | a :: b :: r =>
        simp only [collapseGo, hc, emitRun, Bool.false_eq_true, if_false, List.cons_append,
          List.nil_append]
        exact noWW_cons_cons_of_not_space hc hX

theorem collapseGo_id : ∀ s : List Char,
    (noWW s = true → collapseGo [] s = s) ∧
    (∀ c, isSpaceChar c = true → noWW (c :: s) = true → collapseGo [c] s = c :: s) := by
  intro s
  induction s with
  | nil =>
    exact ⟨fun _ => rfl, fun c _ _ => rfl⟩
  | cons c rest ih =>
    constructor
    · intro h
      by_cases hc : isSpaceChar c = true
      · simpa [collapseGo, hc] using ih.2 c hc h
      · rw [Bool.not_eq_true] at hc
        simp [collapseGo, hc, emitRun, ih.1 (noWW_tail h)]
    · intro d hd h
      have hc : isSpaceChar c = false := by
        cases hcc : isSpaceChar c with
        | false => rfl
        | true =>
          exfalso
          simp only [noWW, Bool.and_eq_true, Bool.not_eq_eq_eq_not, Bool.not_true] at h
          rw [hd, hcc] at h
          simp at h
      have hrest : noWW rest = true := noWW_tail (noWW_tail h)
      simp [collapseGo, hc, emitRun, ih.1 hrest]

theorem noWW_append_right : ∀ (a b : List Char), noWW (a ++ b) = true → noWW b = true := by
  intro a
  induction a with
  | nil => intro b h; simpa using h
  | cons x a' ih => intro b h; exact ih b (noWW_tail (by simpa using h))

theorem noWW_append_left : ∀ (a b : List Char), noWW (a ++ b) = true → noWW a = true := by
  intro a
  induction a with
  | nil => intro b _; rfl
  | cons x a' ih =>
    intro b h
    cases a' with
    | nil => rfl
    | cons y a'' =>
      simp only [List.cons_append, noWW, Bool.and_eq_true] at h
      have : noWW (y :: a'') = true := ih b (by simpa using h.2)
      simp [noWW, h.1, this]

theorem dropWhile_head_false {p : Char → Bool} :
    ∀ (l : List Char) (c : Char) (cs : List Char), l.dropWhile p = c :: cs → p c = false := by
  intro l
  induction l with
  | nil => intro c cs h; simp [List.dropWhile] at h
  | cons x xs ih =>
    intro c cs h
    rw [List.dropWhile_cons] at h
    by_cases hx : p x = true
    · rw [if_pos hx] at h; exact ih c cs h
    · rw [Bool.not_eq_true] at hx
      rw [if_neg (by simp [hx])] at h
      cases h
      exact hx

theorem dropWhile_decomp (p : Char → Bool) :
    ∀ l : List Char, ∃ u, l = u ++ l.dropWhile p := by
  intro l
  induction l with
  | nil => exact ⟨[], rfl⟩
  | cons x xs ih =>
    rw [List.dropWhile_cons]
    by_cases hx : p x = true
    · obtain ⟨u, hu⟩ := ih
      exact ⟨x :: u, by simp [hx, ← hu]⟩
    · exact ⟨[], by simp [hx]⟩

theorem noWW_trimLeft {l : List Char} (h : noWW l = true) : noWW (trimLeft l) = true := by
  obtain ⟨u, hu⟩ := dropWhile_decomp isSpaceChar l
  unfold trimLeft
  exact noWW_append_right u _ (by rw [← hu]; exact h)

theorem trimRight_decomp : ∀ l : List Char, ∃ u, l = trimRight l ++ u := by
  intro l
  obtain ⟨u, hu⟩ := dropWhile_decomp isSpaceChar l.reverse
  refine ⟨u.reverse, ?_⟩
  have := congrArg List.reverse hu
  simpa [trimRight, List.reverse_append] using this

theorem noWW_trimRight {l : List Char} (h : noWW l = true) : noWW (trimRight l) = true := by
  obtain ⟨u, hu⟩ := trimRight_decomp l
  exact noWW_append_left _ u (by rw [← hu]; exact h)

theorem trimLeft_of_head_not_space : ∀ {l : List Char},
    (∀ c cs, l = c :: cs → isSpaceChar c = false) → trimLeft l = l := by
  intro l h
  cases l with
  | nil => rfl
  | cons c cs => simp [trimLeft, List.dropWhile_cons, h c cs rfl]

theorem trimRight_of_rev_head_not_space {l : List Char}
    (h : ∀ c cs, l.reverse = c :: cs → isSpaceChar c = false) : trimRight l = l := by
  unfold trimRight
  cases hrev : l.reverse with
  | nil =>
    have : l = [] := by cases l with
      | nil => rfl
      | cons x xs => simp at hrev
    simp [this]
  | cons c cs =>
    rw [List.dropWhile_cons, h c cs hrev, if_neg (by simp)]
    rw [← hrev, List.reverse_reverse]

theorem finalTitle_fixed (s : List Char) :
    collapseWS (finalTitle s) = finalTitle s ∧ trimWS (finalTitle s) = finalTitle s := by
  have hnoWW : noWW (collapseWS s) = true := collapseGo_noWW s []
  have hnoWWt : noWW (finalTitle s) = true := by
    unfold finalTitle trimWS
    exact noWW_trimRight (noWW_trimLeft hnoWW)
  constructor
  · exact (collapseGo_id (finalTitle s)).1 hnoWWt
  · -- the head of `trimWS y` is not whitespace, nor is its last character
    have hhead : ∀ c cs, finalTitle s = c :: cs → isSpaceChar c = false := by
      intro c cs hc
      -- finalTitle s = trimRight (trimLeft (collapseWS s)); trimRight keeps a prefix
      obtain ⟨u, hu⟩ := trimRight_decomp (trimLeft (collapseWS s))
      have : trimLeft (collapseWS s) = c :: (cs ++ u) := by
        rw [hu]
        unfold finalTitle trimWS at hc
        rw [hc]
        simp
      exact dropWhile_head_false _ c (cs ++ u) this
    have hlast : ∀ c cs, (finalTitle s).reverse = c :: cs → isSpaceChar c = false := by
      intro c cs hc
      have : (trimLeft (collapseWS s)).reverse.dropWhile isSpaceChar = c :: cs := by
        have : (finalTitle s).reverse =
            (trimLeft (collapseWS s)).reverse.dropWhile isSpaceChar := by
          unfold finalTitle trimWS trimRight
          simp
        rw [← this]
        exact hc
      exact dropWhile_head_false _ c cs this
    unfold trimWS
    rw [trimLeft_of_head_not_space hhead, trimRight_of_rev_head_not_space hlast]

theorem finalTitle_idem (s : List Char) : finalTitle (finalTitle s) = finalTitle s := by
  have h := finalTitle_fixed s
  show trimWS (collapseWS (finalTitle s)) = finalTitle s
  rw [h.1, h.2]

/-! ## Lemmas: the parser on marker-free input -/

theorem timeStep_none : ∀ s, timeStep none s = (none, s) := by
  intro s
  unfold timeStep
  cases findTime s <;> rfl

theorem parseNLP_core_of_noMarkers (now : DateTime) (s0 : List Char)
    (h : noMarkers s0 = true) :
    cleanAndDue now s0 = (none, s0) ∧ parsePriority s0 = Priority.medium ∧
      stripTags (stripPriorities s0) = ([], s0) := by
  simp only [noMarkers, Bool.and_eq_true, Bool.not_eq_true'] at h
  obtain ⟨⟨⟨⟨⟨⟨h1, h2⟩, h3⟩, h4⟩, h5⟩, h6⟩, h7⟩ := h
  have e1 : repAllMulti [pHigh] s0 = s0 := repF_of_no_match _ _ _ h1
  have e2 : repAllMulti [pMedium, pMed] s0 = s0 := repF_of_no_match _ _ _ h2
  have e3 : repAllMulti [pLow] s0 = s0 := repF_of_no_match _ _ _ h3
  have estrip : stripPriorities s0 = s0 := by
    unfold stripPriorities
    rw [e1, e2, e3]
  have etags : stripTags s0 = ([], s0) := stripTags_of_no_tags _ h4
  have edate : dateStep now s0 = (none, s0) := by
    unfold dateStep
    rw [h5, h6, h7]
    simp
  refine ⟨?_, ?_, ?_⟩
  · unfold cleanAndDue afterTags
    rw [estrip, etags]
    simp only
    rw [edate]
    simp only
    exact timeStep_none s0
  · unfold parsePriority
    simp only [e1, e2]
    rw [h1, h2, h3]
    simp
  · rw [estrip, etags]

theorem parseNLP_of_noMarkers (now : DateTime) (text : String)
    (h : noMarkers text.toList = true) :
    parseNLP now text =
      { title := String.mk (finalTitle text.toList), dueAt := none,
        priority := Priority.medium, tags := [] } := by
  have hc := parseNLP_core_of_noMarkers now text.toList h
  unfold parseNLP
  simp only [hc.1, hc.2.1, hc.2.2, List.map_nil]

set_option maxHeartbeats 4000000

/-! ## Claim C3: priority check order high → medium → low, last match wins,
matched markers stripped -/

theorem repF_sublist : ∀ (fuel : Nat) (pats : List (List Char)) (s : List Char),
    (repF fuel pats s).Sublist s := by
  intro fuel
  induction fuel with
  | zero => intro pats s; exact List.Sublist.refl s
  | succ f ih =>
    intro pats s
    cases s with
    | nil => exact List.Sublist.refl []
    | cons c rest =>
      cases hfind : pats.find? (fun p => isPrefixCI p (c :: rest)) with
      | some p =>
        simp only [repF, hfind]
        exact ((ih pats _).trans (List.drop_sublist _ _)).trans (List.sublist_cons_self c rest)
      | none =>
        simp only [repF, hfind]
        exact (ih pats rest).cons₂ c

theorem isPrefixCI_length : ∀ (a s : List Char), isPrefixCI a s = true →
    a.length ≤ s.length := by
  intro a
  induction a with
  | nil => intro s _; simp
  | cons x xs ih =>
    intro s h
    cases s with
    | nil => simp [isPrefixCI] at h
    | cons c cs =>
      simp only [isPrefixCI, Bool.and_eq_true] at h
      simpa [List.length_cons] using Nat.succ_le_succ (ih cs h.2)

theorem repF_length_of_match (pats : List (List Char)) (m : Nat)
    (hmin : ∀ p ∈ pats, m ≤ p.length) :
    ∀ (fuel : Nat) (s : List Char), s.length ≤ fuel → hasMatchMulti pats s = true →
      (repF fuel pats s).length + m ≤ s.length := by
  intro fuel
  induction fuel with
  | zero =>
    intro s hle h
    have : s = [] := List.length_eq_zero.mp (Nat.le_zero.mp hle)
    subst this
    simp [hasMatchMulti] at h
  | succ f ih =>
    intro s hle h
    cases s with
    | nil => simp [hasMatchMulti] at h
    | cons c rest =>
      cases hfind : pats.find? (fun p => isPrefixCI p (c :: rest)) with
      | some p =>
        have hm := hmin p (List.mem_of_find?_eq_some hfind)
        have hplen : p.length ≤ rest.length + 1 := by
          have := isPrefixCI_length p (c :: rest) (by simpa using @List.find?_some _ _ _ _ hfind)
          simpa using this
        simp only [repF, hfind, List.length_cons]
        have hlen1 : (repF f pats (rest.drop (p.length - 1))).length ≤
            (rest.drop (p.length - 1)).length :=
          (repF_sublist f pats _).length_le
        have hlen2 : (rest.drop (p.length - 1)).length = rest.length - (p.length - 1) :=
          List.length_drop _ _
        omega
      | none =>
        have hany : (pats.any fun p => isPrefixCI p (c :: rest)) = false :=
          List.any_eq_false.mpr (List.find?_eq_none.mp hfind)
        have hrest : hasMatchMulti pats rest = true := by
          simp only [hasMatchMulti, hany, Bool.false_or] at h
          exact h
        simp only [repF, hfind, List.length_cons]
        have := ih rest (by simpa using Nat.le_of_succ_le_succ hle) hrest
        omega

/-- C3: priority markers are checked in the fixed order high, medium, low and
the last matching marker in that order wins: any input containing both
`!high` and `!low` (case-insensitively) parses with priority `low` (the
`!low` check runs last and overwrites the registered value).  All matched
markers are stripped from the title: the title is computed from the working
text with every scanned priority-marker occurrence removed
(`stripPriorities`), and that stripping only deletes characters — here at
least the nine characters of one `!high` and one `!low` occurrence. -/
theorem parse_priority_low_wins (now : DateTime) (text : String)
    (hh : hasMatchMulti [pHigh] text.toList = true)
    (hl : hasMatchMulti [pLow] text.toList = true) :
    (parseNLP now text).priority = Priority.low ∧
    (parseNLP now text).title =
      String.mk (finalTitle
        (timeStep (dateStep now (stripTags (stripPriorities text.toList)).2).1
          (dateStep now (stripTags (stripPriorities text.toList)).2).2).2) ∧
    (stripPriorities text.toList).Sublist text.toList ∧
    (stripPriorities text.toList).length + 9 ≤ text.toList.length := by
  have step1 : hasMatchMulti [pLow] (repAllMulti [pHigh] text.toList) = true := by
    unfold repAllMulti
    exact hasMatch_repF pLow [pHigh] (by decide) (by decide) (by decide) (by decide)
      _ _ (le_refl _) hl
  have step2 : hasMatchMulti [pLow]
      (repAllMulti [pMedium, pMed] (repAllMulti [pHigh] text.toList)) = true := by
    unfold repAllMulti
    unfold repAllMulti at step1
    exact hasMatch_repF pLow [pMedium, pMed] (by decide) (by decide) (by decide) (by decide)
      _ _ (le_refl _) step1
  refine ⟨?_, rfl, ?_, ?_⟩
  · show parsePriority text.toList = Priority.low
    unfold parsePriority
    simp only [step2, if_true]
  · unfold stripPriorities repAllMulti
    exact ((repF_sublist _ _ _).trans (repF_sublist _ _ _)).trans (repF_sublist _ _ _)
  · have hlen1 : (repAllMulti [pHigh] text.toList).length + 5 ≤ text.toList.length := by
      unfold repAllMulti
      exact repF_length_of_match [pHigh] 5 (by decide) _ _ (le_refl _) hh
    have hlen2 : (repAllMulti [pMedium, pMed] (repAllMulti [pHigh] text.toList)).length ≤
        (repAllMulti [pHigh] text.toList).length := by
      unfold repAllMulti
      exact (repF_sublist _ _ _).length_le
    have hlen3 : (repAllMulti [pLow]
          (repAllMulti [pMedium, pMed] (repAllMulti [pHigh] text.toList))).length + 4 ≤
        (repAllMulti [pMedium, pMed] (repAllMulti [pHigh] text.toList)).length := by
      unfold repAllMulti
      unfold repAllMulti at step2
      exact repF_length_of_match [pLow] 4 (by decide) _ _ (le_refl _) step2
    unfold stripPriorities
    omega

/-- C3 witness: a concrete input containing both markers parses as `low`,
loses at least nine characters to the priority stripping, and its title has
both markers removed. -/
theorem parse_priority_low_wins_witness :
    hasMatchMulti [pHigh] "do !HIGH and !low stuff".toList = true ∧
      hasMatchMulti [pLow] "do !HIGH and !low stuff".toList = true ∧
      (parseNLP dt0 "do !HIGH and !low stuff").priority = Priority.low ∧
      (stripPriorities "do !HIGH and !low stuff".toList).length + 9 ≤
        "do !HIGH and !low stuff".toList.length ∧
      (parseNLP dt0 "do !HIGH and !low stuff").title = "do and stuff" := by
  have h := parse_priority_low_wins dt0 "do !HIGH and !low stuff" (by decide) (by decide)
  exact ⟨by decide, by decide, h.1, h.2.2.2, by decide⟩

/-! ## Claim C2 (corrected): marker-free input parses to defaults, but the
title is whitespace-normalised, not returned verbatim -/

/-- C2 (amended): for input with no priority markers, no `#word` tags, no
relative-date keyword and no recognised time phrase, `parseNLP` never fails
and returns priority `medium`, no tags, no due date, and as title the input
with runs of two or more whitespace characters collapsed to one space and
the ends trimmed (the claim's "input text untouched" fails: step 5 always
normalises whitespace). -/
theorem parse_clean_input_default (now : DateTime) (text : String)
    (h1 : hasMatchMulti [pHigh] text.toList = false)
    (h2 : hasMatchMulti [pMedium, pMed] text.toList = false)
    (h3 : hasMatchMulti [pLow] text.toList = false)
    (h4 : hasTags text.toList = false)
    (h5 : testWB kwToday text.toList = false)
    (h6 : testWB kwTomorrow text.toList = false)
    (h7 : testWB kwNextWeek text.toList = false)
    (_h8 : findTime text.toList = none) :
    parseNLP now text =
      { title := String.mk (finalTitle text.toList), dueAt := none,
        priority := Priority.medium, tags := [] } := by
  apply parseNLP_of_noMarkers
  simp only [noMarkers, Bool.and_eq_true, Bool.not_eq_true']
  exact ⟨⟨⟨⟨⟨⟨h1, h2⟩, h3⟩, h4⟩, h5⟩, h6⟩, h7⟩

/-- C2 witness: a concrete marker-free input parses to defaults with the
normalised title. -/
theorem parse_clean_input_default_witness :
    hasMatchMulti [pHigh] "hello  world".toList = false ∧
      hasMatchMulti [pMedium, pMed] "hello  world".toList = false ∧
      hasMatchMulti [pLow] "hello  world".toList = false ∧
      hasTags "hello  world".toList = false ∧
      testWB kwToday "hello  world".toList = false ∧
      testWB kwTomorrow "hello  world".toList = false ∧
      testWB kwNextWeek "hello  world".toList = false ∧
      findTime "hello  world".toList = none ∧
      parseNLP dt0 "hello  world" =
        { title := "hello world", dueAt := none,
          priority := Priority.medium, tags := [] } := by
  refine ⟨by decide, by decide, by decide, by decide, by decide, by decide, by decide,
    by decide, ?_⟩
  rw [parse_clean_input_default dt0 "hello  world" (by decide) (by decide) (by decide)
    (by decide) (by decide) (by decide) (by decide) (by decide)]
  decide

/-- C2 counterexample: `"a  b"` satisfies every hypothesis of the claim (no
markers, tags, date keywords or time phrase), yet the returned title is
`"a b"`, not the input text untouched. -/
theorem parse_title_not_untouched_cex :
    hasMatchMulti [pHigh] "a  b".toList = false ∧
      hasMatchMulti [pMedium, pMed] "a  b".toList = false ∧
      hasMatchMulti [pLow] "a  b".toList = false ∧
      hasTags "a  b".toList = false ∧
      testWB kwToday "a  b".toList = false ∧
      testWB kwTomorrow "a  b".toList = false ∧
      testWB kwNextWeek "a  b".toList = false ∧
      findTime "a  b".toList = none ∧
      (parseNLP dt0 "a  b").title ≠ "a  b" := by
  decide

/-! ## Claim C6: idempotence of the parser on marker-free titles -/

/-- C6: `parseNLP` is total (it is a total function of this development) and
idempotent on its title: when the returned title contains no remaining
markers, parsing that title again returns the same title unchanged. -/
theorem parse_title_idempotent (now now' : DateTime) (text : String)
    (h : noMarkers ((parseNLP now text).title).toList = true) :
    (parseNLP now' ((parseNLP now text).title)).title = (parseNLP now text).title := by
  have h1 := parseNLP_of_noMarkers now' ((parseNLP now text).title) h
  have h2 : (parseNLP now' ((parseNLP now text).title)).title =
      String.mk (finalTitle ((parseNLP now text).title).toList) := by rw [h1]
  have hshape : (parseNLP now text).title =
      String.mk (finalTitle (cleanAndDue now text.toList).2) := rfl
  rw [h2, hshape]
  show String.mk (finalTitle (finalTitle (cleanAndDue now text.toList).2)) =
    String.mk (finalTitle (cleanAndDue now text.toList).2)
  rw [finalTitle_idem]

/-- C6 witness: reparsing the title produced from a marker-laden input is the
identity on the title. -/
theorem parse_title_idempotent_witness :
    noMarkers ((parseNLP dt0 "Call doctor today #health !high").title).toList = true ∧
      (parseNLP dt0 ((parseNLP dt0 "Call doctor today #health !high").title)).title =
        (parseNLP dt0 "Call doctor today #health !high").title :=
  ⟨by decide, parse_title_idempotent dt0 dt0 "Call doctor today #health !high" (by decide)⟩

/-! ## Claim C4: relative-date keyword order and values -/

/-- C4: on the working text after priority and tag stripping, the relative
date keywords are checked in the fixed order `today`, `tomorrow`,
`next week` and only the first match sets the due date: `today` gives the
current calendar day at 23:59, `tomorrow` gives the next calendar day at
09:00, `next week` (only when neither of the others matched) gives the
current instant plus seven days with the time of day unchanged; the matched
keyword is stripped (globally, with word boundaries). -/
theorem dateStep_keyword_order (now : DateTime) (t : List Char) :
    (testWB kwToday t = true →
      dateStep now t =
        (some { year := now.year, month := now.month, day := now.day,
                hour := 23, minute := 59, second := 0 },
         repAllWB kwToday t)) ∧
    (testWB kwToday t = false → testWB kwTomorrow t = true →
      dateStep now t =
        (some { year := (addDays now 1).year, month := (addDays now 1).month,
                day := (addDays now 1).day, hour := 9, minute := 0, second := 0 },
         repAllWB kwTomorrow t)) ∧
    (testWB kwToday t = false → testWB kwTomorrow t = false →
      testWB kwNextWeek t = true →
      dateStep now t = (some (addDays now 7), repAllWB kwNextWeek t)) ∧
    (testWB kwToday t = false → testWB kwTomorrow t = false →
      testWB kwNextWeek t = false → dateStep now t = (none, t)) := by
  refine ⟨?_, ?_, ?_, ?_⟩
  · intro h1
    unfold dateStep
    rw [h1]
    simp
  · intro h1 h2
    unfold dateStep
    rw [h1, h2]
    simp
  · intro h1 h2 h3
    unfold dateStep
    rw [h1, h2, h3]
    simp
  · intro h1 h2 h3
    unfold dateStep
    rw [h1, h2, h3]
    simp

/-- C4 witness: `today` in a concrete stripped text yields the current day at
23:59 and strips the keyword. -/
theorem dateStep_keyword_order_witness :
    testWB kwToday "Call doctor today".toList = true ∧
      dateStep dt0 "Call doctor today".toList =
        (some { year := 2024, month := 3, day := 10, hour := 23, minute := 59, second := 0 },
         "Call doctor ".toList) := by
  refine ⟨by decide, ?_⟩
  have h := (dateStep_keyword_order dt0 "Call doctor today".toList).1 (by decide)
  rw [h]
  decide

/-! ## Claim C5 (corrected): the time phrase overwrites the time of day but
also zeroes the seconds -/

/-- C5 (amended): when a time phrase is found and a due date was established,
`setHours(h, m, 0, 0)` overwrites the hour and minute (12h→24h conversion:
`pm` with hour ≠ 12 adds 12, `am` with hour 12 becomes 0) **and zeroes the
seconds** (the claim's "overwrites only the hour and minute" fails on the
seconds), leaving the calendar date intact whenever the converted hour is
below 24 and the minutes below 60; the matched phrase is stripped (first
literal occurrence).  When no due date was established, the due date stays
absent and the text is untouched. -/
theorem timeStep_overwrites_time (d : DateTime) (t : List Char) (tm : TimeMatch)
    (hf : findTime t = some tm) (hh : to24 tm.hour tm.mer < 24) (hm : tm.minute < 60) :
    timeStep (some d) t =
      (some { year := d.year, month := d.month, day := d.day,
              hour := to24 tm.hour tm.mer, minute := tm.minute, second := 0 },
       removeFirstLit tm.matched t) ∧
    ∀ s, timeStep none s = (none, s) := by
  refine ⟨?_, timeStep_none⟩
  unfold timeStep
  rw [hf]
  unfold setHoursJS
  have h1 : (to24 tm.hour tm.mer * 60 + tm.minute) / 1440 = 0 :=
    Nat.div_eq_of_lt (by omega)
  have h2 : (to24 tm.hour tm.mer * 60 + tm.minute) % 1440 / 60 = to24 tm.hour tm.mer := by
    omega
  have h3 : (to24 tm.hour tm.mer * 60 + tm.minute) % 60 = tm.minute := by omega
  simp only [h1, h2, h3, addDays]

/-- C5 witness: `9am` against an established due date rewrites the time of
day to 09:00:00. -/
theorem timeStep_overwrites_time_witness :
    findTime "Meeting 9am".toList = some ⟨"9am".toList, 9, 0, 'a'⟩ ∧
      to24 9 'a' < 24 ∧ (0 : Nat) < 60 ∧
      timeStep (some dt0) "Meeting 9am".toList =
        (some { year := 2024, month := 3, day := 10, hour := 9, minute := 0, second := 0 },
         removeFirstLit "9am".toList "Meeting 9am".toList) := by
  refine ⟨by decide, by decide, by decide, ?_⟩
  exact (timeStep_overwrites_time dt0 "Meeting 9am".toList ⟨"9am".toList, 9, 0, 'a'⟩
    (by decide) (by decide) (by decide)).1

/-- C5 counterexample: for `next week 9am` parsed at 10:20:30, the due date
seconds are zeroed by `setHours(h, m, 0, 0)`; under the claim ("overwrites
only the hour and minute") they would remain 30. -/
theorem timeStep_not_only_hour_minute_cex :
    (parseNLP { year := 2024, month := 1, day := 1, hour := 10, minute := 20, second := 30 }
        "next week 9am").dueAt =
      some { year := 2024, month := 1, day := 8, hour := 9, minute := 0, second := 0 } ∧
    (parseNLP { year := 2024, month := 1, day := 1, hour := 10, minute := 20, second := 30 }
        "next week 9am").dueAt ≠
      some { year := 2024, month := 1, day := 8, hour := 9, minute := 0, second := 30 } := by
  decide

/-! ## Lemmas: the query pipeline -/

theorem withIdx_map_snd : ∀ (n : Nat) (l : List Task), (withIdx n l).map Prod.snd = l := by
  intro n l
  induction l generalizing n with
  | nil => rfl
  | cons t ts ih => simp [withIdx, ih]

theorem sortTasks_perm (sort : String) (l : List Task) : (sortTasks sort l).Perm l := by
  unfold sortTasks sortIndexed
  have h := (List.perm_insertionSort (rIdx sort) (withIdx 0 l)).map Prod.snd
  rwa [withIdx_map_snd] at h

theorem sortTasks_length (sort : String) (l : List Task) :
    (sortTasks sort l).length = l.length :=
  (sortTasks_perm sort l).length_eq

theorem dueFilter_sublist_mono (clk : Clock) (d : String) {l₁ l₂ : List Task}
    (h : l₁.Sublist l₂) : (dueFilter clk d l₁).Sublist (dueFilter clk d l₂) := by
  unfold dueFilter
  split_ifs <;> first | exact h.filter _ | exact h

theorem dueFilter_sublist (clk : Clock) (d : String) (l : List Task) :
    (dueFilter clk d l).Sublist l := by
  unfold dueFilter
  split_ifs <;> first | exact List.filter_sublist l | exact List.Sublist.refl l

theorem dueFilter_empty_str (clk : Clock) (l : List Task) : dueFilter clk "" l = l := by
  unfold dueFilter
  simp

theorem searchStage_sublist_mono (q : String) {l₁ l₂ : List Task} (h : l₁.Sublist l₂) :
    (if q = "" then l₁ else l₁.filter (matchesSearch q)).Sublist
      (if q = "" then l₂ else l₂.filter (matchesSearch q)) := by
  split_ifs with hq
  · exact h
  · exact h.filter _

/-- Length of the full pipeline result, with the sort stripped away. -/
theorem getFilteredTasks_length (clk : Clock) (sp : QuerySpec) (tasks : List Task) :
    (getFilteredTasks clk sp tasks).length =
      (let l0 := viewFilter clk sp.currentView tasks
       let l1 := match sp.filterTag with
                 | some g => l0.filter (fun t => t.tags.contains g)
                 | none => l0
       let l2 := if sp.filterPriorities.isEmpty then l1
                 else l1.filter (fun t => sp.filterPriorities.contains t.priority)
       let l3 := dueFilter clk sp.filterDue l2
       let l4 := if sp.searchQuery = "" then l3 else l3.filter (matchesSearch sp.searchQuery)
       l4).length := by
  unfold getFilteredTasks
  exact sortTasks_length _ _

/-! ## Claim C1 (corrected): monotonicity of added constraints -/

/-- C1 (amended): starting from any query specification, adding a tag filter
or a due-date bucket filter never increases the result size, and selecting a
priority when none was selected never increases it.  (Adding one more
selected priority to an already non-empty selection can *increase* the
result size — the priority checkboxes are a union, see the counterexample —
which is the one part of the claim that fails.) -/
theorem filter_add_constraint_monotone (clk : Clock) (sp : QuerySpec) (tasks : List Task) :
    (∀ g, (getFilteredTasks clk { sp with filterTag := some g } tasks).length ≤
        (getFilteredTasks clk { sp with filterTag := none } tasks).length) ∧
    (∀ d, (getFilteredTasks clk { sp with filterDue := d } tasks).length ≤
        (getFilteredTasks clk { sp with filterDue := "" } tasks).length) ∧
    (∀ p, (getFilteredTasks clk { sp with filterPriorities := [p] } tasks).length ≤
        (getFilteredTasks clk { sp with filterPriorities := [] } tasks).length) := by
  refine ⟨?_, ?_, ?_⟩
  · intro g
    rw [getFilteredTasks_length, getFilteredTasks_length]
    simp only
    apply List.Sublist.length_le
    apply searchStage_sublist_mono
    apply dueFilter_sublist_mono
    have hbase : (List.filter (fun t => t.tags.contains g)
        (viewFilter clk sp.currentView tasks)).Sublist
        (viewFilter clk sp.currentView tasks) := List.filter_sublist _
    split_ifs
    · exact hbase
    · exact hbase.filter _
  · intro d
    rw [getFilteredTasks_length, getFilteredTasks_length]
    simp only
    apply List.Sublist.length_le
    apply searchStage_sublist_mono
    rw [dueFilter_empty_str]
    exact dueFilter_sublist clk d _
  · intro p
    rw [getFilteredTasks_length, getFilteredTasks_length]
    simp only [List.isEmpty_cons, List.isEmpty_nil, if_false, if_true]
    apply List.Sublist.length_le
    apply searchStage_sublist_mono
    apply dueFilter_sublist_mono
    exact List.filter_sublist _

/-- C1 counterexample: with view `all` and priority selection `[high]` the
result has one task; adding the selected priority `low` grows it to two —
adding one more selected priority *increases* the result size. -/
theorem priority_filter_widens_cex :
    (getFilteredTasks clk0 spHigh tasksHL).length = 1 ∧
      (getFilteredTasks clk0 { spHigh with
        filterPriorities := [Priority.high, Priority.low] } tasksHL).length = 2 := by
  decide

/-! ## Claim C7: the completed view -/

/-- C7: with view `completed` and no tag, priority, due-bucket or search
constraints, the query returns exactly (as a permutation: the trailing sort
only reorders) the tasks whose `completedAt` is non-null, for every sort key
and every clock. -/
theorem completed_view_exact (clk : Clock) (tasks : List Task) (sortKey : String) :
    (getFilteredTasks clk
        { currentView := "completed", filterTag := none, searchQuery := "",
          sortBy := sortKey, filterPriorities := [], filterDue := "" } tasks).Perm
      (tasks.filter (fun t => t.completedAt.isSome)) := by
  unfold getFilteredTasks viewFilter
  simp only
  rw [dueFilter_empty_str]
  simp only [List.isEmpty_nil, if_true, if_pos rfl]
  have : ¬(("completed" : String) = "today") := by decide
  simp only [String.reduceEq, if_false, if_true, reduceIte]
  exact sortTasks_perm _ _

/-! ## Lemmas: the stable sort -/

theorem rIdx_total_dueDate : ∀ p q : Nat × Task, rIdx "dueDate" p q ∨ rIdx "dueDate" q p := by
  intro p q
  unfold rIdx
  rcases hp : p.2.dueAt with _ | x <;> rcases hq : q.2.dueAt with _ | y <;>
    simp [cmpTasks, hp, hq] <;> omega

theorem rIdx_trans_dueDate : ∀ p q r : Nat × Task,
    rIdx "dueDate" p q → rIdx "dueDate" q r → rIdx "dueDate" p r := by
  intro p q r h1 h2
  unfold rIdx at h1 h2 ⊢
  rcases hp : p.2.dueAt with _ | x <;> rcases hq : q.2.dueAt with _ | y <;>
    rcases hr : r.2.dueAt with _ | z <;>
    simp [cmpTasks, hp, hq, hr] at h1 h2 ⊢ <;> omega

theorem mem_withIdx_le : ∀ (n : Nat) (l : List Task) (p : Nat × Task),
    p ∈ withIdx n l → n ≤ p.1 := by
  intro n l
  induction l generalizing n with
  | nil => intro p hp; simp [withIdx] at hp
  | cons t ts ih =>
    intro p hp
    simp only [withIdx, List.mem_cons] at hp
    rcases hp with rfl | hp
    · exact Nat.le_refl n
    · exact Nat.le_of_succ_le (ih (n + 1) p hp)

theorem withIdx_pairwise_lt : ∀ (n : Nat) (l : List Task),
    (withIdx n l).Pairwise (fun p q => p.1 < q.1) := by
  intro n l
  induction l generalizing n with
  | nil => exact List.Pairwise.nil
  | cons t ts ih =>
    refine List.Pairwise.cons ?_ (ih (n + 1))
    intro q hq
    exact Nat.lt_of_succ_le (mem_withIdx_le (n + 1) ts q hq)

theorem dueLE_of_cmp (a b : Task)
    (h : cmpTasks "dueDate" a b < 0 ∨ cmpTasks "dueDate" a b = 0) : dueLE a b := by
  unfold dueLE
  rcases hp : a.dueAt with _ | x <;> rcases hq : b.dueAt with _ | y <;>
    simp [cmpTasks, hp, hq] at h ⊢ <;> omega

/-! ## Claim C8: the `dueDate` sort -/

/-- C8: sorting by `dueDate` produces a list ordered ascending by due
instant, with every task lacking a due date after all tasks that have one
(`dueLE` holds pairwise); the result is a permutation of the input; and the
sort is stable: in the index-tagged output, any two entries with equal
comparator value keep their input order. -/
theorem sort_dueDate_sorted_stable (l : List Task) :
    (sortTasks "dueDate" l).Pairwise dueLE ∧
    (sortTasks "dueDate" l).Perm l ∧
    (sortIndexed "dueDate" l).Pairwise
      (fun p q => cmpTasks "dueDate" p.2 q.2 = 0 → p.1 < q.1) := by
  haveI hT : IsTotal (Nat × Task) (rIdx "dueDate") := ⟨rIdx_total_dueDate⟩
  haveI hR : IsTrans (Nat × Task) (rIdx "dueDate") :=
    ⟨fun p q r => rIdx_trans_dueDate p q r⟩
  have hs : (sortIndexed "dueDate" l).Pairwise (rIdx "dueDate") :=
    List.sorted_insertionSort (rIdx "dueDate") (withIdx 0 l)
  have hperm : (sortIndexed "dueDate" l).Perm (withIdx 0 l) :=
    List.perm_insertionSort _ _
  have hne : (sortIndexed "dueDate" l).Pairwise (fun p q => p.1 ≠ q.1) := by
    have h1 : (withIdx 0 l).Pairwise (fun p q : Nat × Task => p.1 ≠ q.1) :=
      (withIdx_pairwise_lt 0 l).imp (fun h => Nat.ne_of_lt h)
    have h2 : ((withIdx 0 l).map Prod.fst).Nodup := List.pairwise_map.mpr h1
    have h3 : ((sortIndexed "dueDate" l).map Prod.fst).Nodup :=
      ((hperm.map Prod.fst).nodup_iff).mpr h2
    exact List.pairwise_map.mp h3
  refine ⟨?_, sortTasks_perm _ _, ?_⟩
  · unfold sortTasks
    apply List.pairwise_map.mpr
    apply hs.imp
    intro p q h
    apply dueLE_of_cmp
    rcases h with h | ⟨h0, _⟩
    · exact Or.inl h
    · exact Or.inr h0
  · apply (hs.and hne).imp
    rintro p q ⟨hr, hneq⟩ h0
    rcases hr with h | ⟨_, hle⟩
    · omega
    · exact Nat.lt_of_le_of_ne hle hneq

/-! ## Lemmas: the `custom` sort and `addTask` -/

theorem cmpTasks_custom (a b : Task) : cmpTasks "custom" a b = a.order - b.order := by
  simp [cmpTasks]

theorem rIdx_shift (sort : String) (p q : Nat × Task) :
    rIdx sort (shiftIdx p) (shiftIdx q) ↔ rIdx sort p q := by
  unfold rIdx shiftIdx
  simp only
  constructor
  · rintro (h | ⟨h0, hle⟩)
    · exact Or.inl h
    · exact Or.inr ⟨h0, by omega⟩
  · rintro (h | ⟨h0, hle⟩)
    · exact Or.inl h
    · exact Or.inr ⟨h0, by omega⟩

theorem orderedInsert_append (r : Nat × Task → Nat × Task → Prop) [DecidableRel r]
    (x : Nat × Task) : ∀ L : List (Nat × Task), (∀ y ∈ L, ¬r x y) →
      L.orderedInsert r x = L ++ [x] := by
  intro L
  induction L with
  | nil => intro _; rfl
  | cons b l ih =>
    intro h
    rw [List.orderedInsert, if_neg (h b (List.mem_cons_self b l))]
    rw [ih (fun y hy => h y (List.mem_cons_of_mem b hy))]
    rfl

theorem withIdx_succ_map : ∀ (n : Nat) (l : List Task),
    withIdx (n + 1) l = (withIdx n l).map shiftIdx := by
  intro n l
  induction l generalizing n with
  | nil => rfl
  | cons t ts ih => simp [withIdx, shiftIdx, ih]

theorem orderedInsert_map_shift (sort : String) (p : Nat × Task) :
    ∀ L : List (Nat × Task),
      (L.map shiftIdx).orderedInsert (rIdx sort) (shiftIdx p) =
        (L.orderedInsert (rIdx sort) p).map shiftIdx := by
  intro L
  induction L with
  | nil => rfl
  | cons b l ih =>
    simp only [List.map_cons, List.orderedInsert]
    by_cases h : rIdx sort p b
    · rw [if_pos ((rIdx_shift sort p b).mpr h), if_pos h]
      rfl
    · rw [if_neg (fun hc => h ((rIdx_shift sort p b).mp hc)), if_neg h, List.map_cons, ih]

theorem insertionSort_map_shift (sort : String) :
    ∀ L : List (Nat × Task),
      (L.map shiftIdx).insertionSort (rIdx sort) =
        (L.insertionSort (rIdx sort)).map shiftIdx := by
  intro L
  induction L with
  | nil => rfl
  | cons b l ih =>
    simp only [List.map_cons, List.insertionSort, ih, orderedInsert_map_shift]

theorem foldl_max_bounds : ∀ (ts : List Task) (init : Int),
    init ≤ ts.foldl (fun m x => max m x.order) init ∧
      ∀ t ∈ ts, t.order ≤ ts.foldl (fun m x => max m x.order) init := by
  intro ts
  induction ts with
  | nil => intro init; exact ⟨le_refl _, by simp⟩
  | cons x ts ih =>
    intro init
    simp only [List.foldl_cons]
    constructor
    · exact le_trans (le_max_left _ _) (ih (max init x.order)).1
    · intro t ht
      rcases List.mem_cons.mp ht with rfl | ht
      · exact le_trans (le_max_right _ _) (ih (max init t.order)).1
      · exact (ih (max init x.order)).2 t ht

theorem le_maxOrder : ∀ (l : List Task) (t : Task), t ∈ l → t.order ≤ maxOrder l := by
  intro l t ht
  cases l with
  | nil => simp at ht
  | cons h ts =>
    unfold maxOrder
    rcases List.mem_cons.mp ht with rfl | ht
    · exact (foldl_max_bounds ts t.order).1
    · exact (foldl_max_bounds ts h.order).2 t ht

theorem mem_withIdx_snd : ∀ (n : Nat) (l : List Task) (p : Nat × Task),
    p ∈ withIdx n l → p.2 ∈ l := by
  intro n l
  induction l generalizing n with
  | nil => intro p hp; simp [withIdx] at hp
  | cons t ts ih =>
    intro p hp
    simp only [withIdx, List.mem_cons] at hp
    rcases hp with rfl | hp
    · exact List.mem_cons_self t ts
    · exact List.mem_cons_of_mem t (ih (n + 1) p hp)

/-! ## Claim C10: the order assigned by `addTask` -/

/-- C10: `addTask` assigns the new task the order `max existing order + 1`
(or `0` on an empty collection) and unshifts it onto the front of the stored
array; consequently, under the `custom` sort the new task comes after every
pre-existing task (the sorted result is the old sorted result with the new
task appended). -/
theorem addTask_order_spec (tasks : List Task) (data : TaskData) (genId : String)
    (nowIso nowMs : Int) :
    (addTask tasks data genId nowIso nowMs).2 =
      (addTask tasks data genId nowIso nowMs).1 :: tasks ∧
    (addTask tasks data genId nowIso nowMs).1.order =
      (if tasks.isEmpty then 0 else maxOrder tasks + 1) ∧
    sortTasks "custom" ((addTask tasks data genId nowIso nowMs).2) =
      sortTasks "custom" tasks ++ [(addTask tasks data genId nowIso nowMs).1] := by
  refine ⟨rfl, by cases tasks <;> rfl, ?_⟩
  have hntdef : (addTask tasks data genId nowIso nowMs).1.order = newOrder tasks := rfl
  have horder : ∀ y ∈ (withIdx 0 tasks).map shiftIdx,
      ¬rIdx "custom" (0, (addTask tasks data genId nowIso nowMs).1) y := by
    intro y hy
    obtain ⟨z, hz, rfl⟩ := List.mem_map.mp hy
    have hmem : z.2 ∈ tasks := mem_withIdx_snd 0 tasks z hz
    have hle : z.2.order ≤ maxOrder tasks := le_maxOrder tasks z.2 hmem
    have hnew : newOrder tasks = maxOrder tasks + 1 := by
      cases tasks with
      | nil => simp at hmem
      | cons a ts => rfl
    unfold rIdx
    rw [cmpTasks_custom]
    simp only [hntdef, hnew, shiftIdx]
    rintro (h | ⟨h0, _⟩) <;> omega
  have hcons : sortIndexed "custom"
      ((addTask tasks data genId nowIso nowMs).1 :: tasks) =
      (List.insertionSort (rIdx "custom") ((withIdx 0 tasks).map shiftIdx)).orderedInsert
        (rIdx "custom") (0, (addTask tasks data genId nowIso nowMs).1) := by
    unfold sortIndexed
    rw [show withIdx 0 ((addTask tasks data genId nowIso nowMs).1 :: tasks) =
      (0, (addTask tasks data genId nowIso nowMs).1) :: withIdx (0 + 1) tasks from rfl]
    rw [List.insertionSort, withIdx_succ_map]
  have hins : (List.insertionSort (rIdx "custom") ((withIdx 0 tasks).map shiftIdx)).orderedInsert
      (rIdx "custom") (0, (addTask tasks data genId nowIso nowMs).1) =
      ((List.insertionSort (rIdx "custom") (withIdx 0 tasks)).map shiftIdx) ++
        [(0, (addTask tasks data genId nowIso nowMs).1)] := by
    rw [insertionSort_map_shift]
    apply orderedInsert_append
    intro y hy
    apply horder
    obtain ⟨z, hz, rfl⟩ := List.mem_map.mp hy
    exact List.mem_map.mpr ⟨z, (List.mem_insertionSort _).mp hz, rfl⟩
  show (sortIndexed "custom" ((addTask tasks data genId nowIso nowMs).1 :: tasks)).map
      Prod.snd = _
  rw [hcons, hins]
  simp only [List.map_append, List.map_map, List.map_cons, List.map_nil]
  have hsnd : Prod.snd ∘ shiftIdx = (Prod.snd : Nat × Task → Task) := funext (fun _ => rfl)
  rw [hsnd]
  rfl

/-! ## Claim C9: reorder swaps exactly the two order values -/

/-- C9: for distinct tasks A (first match at index `i`) and B (first match at
index `j`), `reorderTasks` swaps exactly their two `order` values (A gets
B's old order and vice versa), refreshes only their `updatedAt`, leaves
every other position untouched, and neither adds nor removes tasks. -/
theorem reorderTasks_swap_spec (tasks : List Task) (srcId destId : String) (now : Int)
    (i j : Nat) (a b : Task)
    (hfi : tasks.findIdx? (fun t => t.id == srcId) = some i)
    (hfj : tasks.findIdx? (fun t => t.id == destId) = some j)
    (hij : i ≠ j)
    (ha : tasks[i]? = some a) (hb : tasks[j]? = some b) :
    (reorderTasks tasks srcId destId now).length = tasks.length ∧
    (reorderTasks tasks srcId destId now)[i]? =
      some { a with order := b.order, updatedAt := now } ∧
    (reorderTasks tasks srcId destId now)[j]? =
      some { b with order := a.order, updatedAt := now } ∧
    ∀ k, k ≠ i → k ≠ j → (reorderTasks tasks srcId destId now)[k]? = tasks[k]? := by
  have hi : i < tasks.length := by
    by_contra h
    rw [List.getElem?_eq_none (Nat.le_of_not_lt h)] at ha
    cases ha
  have hj : j < tasks.length := by
    by_contra h
    rw [List.getElem?_eq_none (Nat.le_of_not_lt h)] at hb
    cases hb
  unfold reorderTasks
  rw [hfi, hfj]
  dsimp only
  rw [ha, hb]
  dsimp only
  refine ⟨by simp [List.length_set], ?_, ?_, ?_⟩
  · rw [List.getElem?_set_ne (Ne.symm hij), List.getElem?_set_eq hi]
  · rw [List.getElem?_set_eq (by simpa [List.length_set] using hj)]
  · intro k hki hkj
    rw [List.getElem?_set_ne (fun h => hkj h.symm), List.getElem?_set_ne (fun h => hki h.symm)]

/-- C9 witness: the spec's example A(order 1), B(order 2), C(order 3):
dragging A onto B gives A(order 2), B(order 1) and C untouched. -/
theorem reorderTasks_swap_spec_witness :
    [taskA, taskB, taskC].findIdx? (fun t => t.id == "A") = some 0 ∧
      [taskA, taskB, taskC].findIdx? (fun t => t.id == "B") = some 1 ∧
      (0 : Nat) ≠ 1 ∧
      [taskA, taskB, taskC][0]? = some taskA ∧
      [taskA, taskB, taskC][1]? = some taskB ∧
      (reorderTasks [taskA, taskB, taskC] "A" "B" 99)[0]? =
        some { taskA with order := 2, updatedAt := 99 } ∧
      (reorderTasks [taskA, taskB, taskC] "A" "B" 99)[1]? =
        some { taskB with order := 1, updatedAt := 99 } ∧
      (reorderTasks [taskA, taskB, taskC] "A" "B" 99)[2]? = some taskC := by
  have h := reorderTasks_swap_spec [taskA, taskB, taskC] "A" "B" 99 0 1 taskA taskB
    (by decide) (by decide) (by decide) (by decide) (by decide)
  refine ⟨by decide, by decide, by decide, by decide, by decide, ?_, ?_, ?_⟩
  · exact h.2.1
  · exact h.2.2.1
  · exact h.2.2.2 2 (by decide) (by decide)

end App
